import Mathlib

/-!
# Spectral-validation harness: shallow embedding and verification

A shallow embedding, over the reals, of the analysis pipeline of the
`sunfish-rs` repository (`src/analysis`): pitch conversion (`freq_for`),
band-limited sawtooth synthesis (`create_saw`), edge smoothing
(`smooth_edges`), the dB spectrum (`fft`), and the two orchestration entry
points (`plot_waves`, `heatmap`).  Machine floats are modelled as real
numbers; Python exceptions are modelled with `Except String`; the opaque
engine collaborator (`pysunfish.CoreWrapper`) is a parameter, and the calls
made to it are recorded as an explicit event trace.
-/

open Real Complex

noncomputable section

namespace Sunfish

/-- `TAU = 2.0 * np.pi`, shared by `synth.py` and `analyze.py`. -/
def TAU : ℝ := 2 * Real.pi

/-- Sample rate constant of `analyze.py` (`SAMPLE_RATE = 44100`). -/
def SAMPLE_RATE : ℝ := 44100

/-- `freq_for` from `utils/common.py`:
`440.0 * (2.0 ** ((note - 69) / 12.0))`. -/
def freq_for (note : ℤ) : ℝ :=
  440.0 * (2.0 : ℝ) ^ (((note : ℝ) - 69) / 12.0)

/-- `get_amp` from `utils/synth.py`: `-1.0` for even harmonics, `1.0` for
odd ones. -/
def get_amp (harmonic : ℕ) : ℝ :=
  if harmonic % 2 = 0 then -1.0 else 1.0

/-- `FreqComponent` from `utils/synth.py` (an `attr` frozen dataclass). -/
structure FreqComponent where
  freq : ℝ
  amp : ℝ
  divisor : ℝ

/-- `np.linspace(a, b, num)` with the default `endpoint=True`:
`num = 1` yields `[a]`; otherwise sample `j` is `a + (b - a) * j / (num - 1)`.
`num = 0` yields the empty array. -/
def linspace (a b : ℝ) (num : ℕ) : List ℝ :=
  if num = 1 then [a]
  else (List.range num).map (fun (j : ℕ) => a + (b - a) * (j : ℝ) / ((num - 1 : ℕ) : ℝ))

/-- `create_saw` from `utils/synth.py`.  The Python function:

* builds `FreqComponent(freq=i*f0, amp=get_amp(i), divisor=i)` for
  `i = 1..harmonics`;
* replaces a missing (or falsy, i.e. `0.0`) `cut_at` by Nyquist;
* computes `dt = 1.0 / sample_rate`, which raises `ZeroDivisionError` when
  `sample_rate == 0`;
* allocates `np.zeros(n)`, which raises `ValueError` when `n < 0`;
* then fills sample `i` (at time `i * dt`, since `time` starts at `0.0` and
  is advanced by `dt` per sample) with the sum of
  `amp * sin(TAU * freq * time) / divisor` over the components whose
  frequency lies strictly below the cutoff. -/
def create_saw (sample_rate : ℝ) (n : ℤ) (f0 : ℝ)
    (harmonics : ℕ := 48) (cut_at : Option ℝ := none) : Except String (List ℝ) :=
  let components := (List.range harmonics).map
    (fun i => FreqComponent.mk (((i + 1 : ℕ) : ℝ) * f0) (get_amp (i + 1)) ((i + 1 : ℕ) : ℝ))
  let nyquist := sample_rate / 2
  -- Python's `cut_at = cut_at or nyquist`: a missing or falsy (`0.0`) cutoff
  -- falls back to Nyquist.
  let cutAt := if cut_at.getD 0 = 0 then nyquist else cut_at.getD 0
  if sample_rate = 0 then .error "ZeroDivisionError: float division by zero"
  else if n < 0 then .error "ValueError: negative dimensions are not allowed"
  else
    let dt := 1 / sample_rate
    .ok ((List.range n.toNat).map (fun (i : ℕ) =>
      components.foldl
        (fun v fc =>
          if cutAt ≤ fc.freq then v
          else v + fc.amp * (Real.sin (TAU * fc.freq * ((i : ℝ) * dt)) / fc.divisor))
        0))

/-- `smooth_edges` from `utils/common.py`.  `amt = 0` returns the input
unchanged.  Otherwise the code reads `signal[0]` (an `IndexError` on an
empty array); if it is nonzero it multiplies the first `amt` samples by
`np.linspace(0.0, 1.0, amt)` (a broadcast `ValueError` when the array is
shorter than `amt`); then, on the possibly-modified array, if the last
sample is nonzero it multiplies the last `amt` samples by
`np.linspace(1.0, 0.0, amt)` (same length constraint). -/
def smooth_edges (signal : List ℝ) (amt : ℕ) : Except String (List ℝ) :=
  if amt = 0 then .ok signal
  else
    match signal with
    | [] => .error "IndexError: index 0 is out of bounds"
    | s0 :: rest =>
      let sig := s0 :: rest
      let n := sig.length
      let step1 : Except String (List ℝ) :=
        if s0 ≠ 0 then
          if n < amt then .error "ValueError: could not broadcast"
          else .ok (List.zipWith (· * ·) (sig.take amt) (linspace 0 1 amt) ++ sig.drop amt)
        else .ok sig
      match step1 with
      | .error e => .error e
      | .ok sig1 =>
        if sig1.getD (sig1.length - 1) 0 ≠ 0 then
          if n < amt then .error "ValueError: could not broadcast"
          else .ok (sig1.take (n - amt) ++
            List.zipWith (· * ·) (sig1.drop (n - amt)) (linspace 1 0 amt))
        else .ok sig1

/-- One bin of `numpy.fft.rfft`: `Y[k] = Σ_j x[j] · exp(−2πi·j·k/n)` with
`n = len(x)`.  The same formula for `k` beyond `n/2` gives the full DFT,
which is used below to reason about the one-sided spectrum. -/
def rfft_bin (x : List ℝ) (k : ℕ) : ℂ :=
  ∑ j in Finset.range x.length,
    (x.getD j 0 : ℂ) * Complex.exp (-(2 * (Real.pi : ℂ) * Complex.I) * j * k / x.length)

/-- Number of one-sided FFT bins: `len(yf) = n // 2 + 1`. -/
def rfft_bins (x : List ℝ) : ℕ := x.length / 2 + 1

/-- `np.max(np.abs(yf))` over the one-sided bins. -/
def fft_max (x : List ℝ) : ℝ :=
  (Finset.range (rfft_bins x)).sup'
    (Finset.nonempty_range_iff.mpr (Nat.succ_ne_zero _))
    (fun k => Complex.abs (rfft_bin x k))

/-- `y_db[k]` from `fft` in `utils/common.py`:
`20.0 * np.log10(yf / np.max(np.abs(yf)))`.  The quotient is complex and no
modulus is taken before the logarithm, so numpy computes the complex
principal `log10(z) = log(z) / log(10)` and the result is complex-valued. -/
def fft_db (x : List ℝ) (k : ℕ) : ℂ :=
  20 * Complex.log (rfft_bin x k / (fft_max x : ℂ)) / Complex.log 10

/-- `fft` from `utils/common.py`: the frequency axis
`xf[k] = k · sample_rate / n` and the dB column.  `numpy.fft.rfft` raises on
an empty input. -/
def fft (signal : List ℝ) (sample_rate : ℝ) : Except String (List ℝ × List ℂ) :=
  if signal.length = 0 then .error "ValueError: Invalid number of FFT data points"
  else .ok
    ((List.range (rfft_bins signal)).map
      (fun (k : ℕ) => (k : ℝ) * sample_rate / signal.length),
     (List.range (rfft_bins signal)).map (fun (k : ℕ) => fft_db signal k))

/-- Python's `str.lower()`, modelled on the character data. -/
def pyLower (s : String) : String := ⟨s.data.map Char.toLower⟩

/-- Python's `str.strip()`: drop whitespace from both ends. -/
def pyStrip (s : String) : String :=
  ⟨((s.data.dropWhile Char.isWhitespace).reverse.dropWhile Char.isWhitespace).reverse⟩

/-- `shape.lower().strip()`, as performed by `shape_float` and `heatmap`. -/
def pyNormalize (s : String) : String := pyStrip (pyLower s)

/-- Python `int()` truncation of a float (toward zero). -/
def pyInt (x : ℝ) : ℤ := if 0 ≤ x then ⌊x⌋ else ⌈x⌉

/-- Python slice index clamping for `l[a:b]`. -/
def pySliceIdx (len : ℕ) (i : ℤ) : ℕ :=
  if i < 0 then (len + i).toNat else min i.toNat len

/-- Python slice `l[a:b]`. -/
def pySlice (l : List ℝ) (a b : ℤ) : List ℝ :=
  (l.take (pySliceIdx l.length b)).drop (pySliceIdx l.length a)

/-- A call made to the engine collaborator (`pysunfish.CoreWrapper`). -/
inductive EngineEvent where
  | updateParam (path : String) (value : ℝ)
  | noteOn (note : ℤ)
  | render (chunkSize : ℤ) (totalSamples : ℤ) (shape : String)
  | noteOff (note : ℤ)

/-- The opaque engine collaborator: `render`'s stereo output as a function
of the note the freshly-created `CoreWrapper` was driven with and of the
render arguments. -/
def Engine : Type := ℤ → ℤ → ℤ → String → List ℝ × List ℝ

/-- Whether a trace contains a `noteOff` call. -/
def hasNoteOff (evs : List EngineEvent) : Bool :=
  evs.any fun e => match e with
    | .noteOff _ => true
    | _ => false

/-- `eparam_path` from `utils/interface.py`: builds the nested JSON path
string (e.g. `eparam_path ["Osc1", "Enable"]` addresses `Osc1.Enable`,
ending in a `null` leaf). -/
def eparam_path (elms : List String) : String :=
  (elms.foldl (fun start elm => start ++ "\x7b\"" ++ elm ++ "\": ") "")
    ++ "null" ++ String.join (elms.map fun _ => "\x7d")

/-- `shape_float` from `analyze.py`: shape name → oscillator shape value;
raises on unsupported names. -/
def shape_float (shape : String) : Except String ℝ :=
  let s := pyNormalize shape
  if s = "sine" then .ok 0.0
  else if s = "softsaw" then .ok 0.4
  else if s = "hardsaw" then .ok 0.7
  else .error ("ValueError: Unsupported shape: " ++ s)

/-- The parameter-setup calls of `initialize_synth` for a shape value `v`. -/
def initParams (v : ℝ) : List EngineEvent :=
  [.updateParam (eparam_path ["Osc1", "Enable"]) 1.0,
   .updateParam (eparam_path ["Osc1", "Shape"]) v,
   .updateParam (eparam_path ["Osc2", "Enable"]) 0.0,
   .updateParam (eparam_path ["Filt1", "Enable"]) 0.0,
   .updateParam (eparam_path ["Filt2", "Enable"]) 0.0,
   .updateParam (eparam_path ["AmpEnv", "Attack"]) 0.1,
   .updateParam (eparam_path ["AmpEnv", "Sustain"]) 1.0,
   .updateParam (eparam_path ["AmpEnv", "Decay"]) 1.0,
   .updateParam (eparam_path ["AmpEnv", "Release"]) 1.0]

/-- `initialize_synth` from `analyze.py`.  The first `update_param` call is
issued before `shape_float(shape)` is evaluated as the second call's
argument, so an unsupported shape leaves a one-event trace and raises. -/
def initialize_synth (shape : String) : List EngineEvent × Except String Unit :=
  match shape_float shape with
  | .error e => ([.updateParam (eparam_path ["Osc1", "Enable"]) 1.0], .error e)
  | .ok v => (initParams v, .ok ())

/-- `plot_waves` from `analyze.py` (single-note mode), with the plotting
calls stripped: returns the engine-call trace together with the smoothed
rendered cut, the smoothed ideal overlay and the dB spectrum of the
rendered cut.  The engine lifecycle it drives is
`updateParam… → noteOn → render`; the function issues no `noteOff`. -/
def plot_waves (engine : Engine) (time_sec : ℝ) (note : ℤ) (shape : String)
    (smooth_samples : ℕ) (chunk_size : ℤ) (cut_start cut_end : Option ℤ) :
    List EngineEvent × Except String (List ℝ × List ℝ × List ℂ) :=
  let buf_len : ℤ := pyInt (time_sec * SAMPLE_RATE)
  let freq := freq_for note
  if buf_len < 0 then
    ([], .error "ValueError: Number of samples must be non-negative")
  else
    let ts := linspace 0 time_sec buf_len.toNat
    let ys := ts.map (fun t => Real.sin (TAU * freq * t))
    match initialize_synth shape with
    | (evs, .error e) => (evs, .error e)
    | (evs, .ok _) =>
      let evs := evs ++ [.noteOn note, .render chunk_size buf_len shape]
      let signal_left := (engine note chunk_size buf_len shape).1
      let start : ℤ := cut_start.getD 0
      let endi : ℤ := cut_end.getD buf_len
      let plot_len : ℤ := endi - start
      let signal := pySlice signal_left start endi
      match smooth_edges signal smooth_samples with
      | .error e => (evs, .error e)
      | .ok signal' =>
        match smooth_edges (pySlice ys 0 plot_len) smooth_samples with
        | .error e => (evs, .error e)
        | .ok ysp =>
          let ys_plot := ysp.map (fun y => (1.0 : ℝ) * y)
          match fft signal' SAMPLE_RATE with
          | .error e => (evs, .error e)
          | .ok pr => (evs, .ok (signal', ys_plot, pr.2))

/-- One iteration of `heatmap`'s per-note loop.  Mirrors the source order:
time axis, ideal synthesis, smoothing, ideal FFT column, then the engine
lifecycle `updateParam… → noteOn → render → noteOff`.  As in the source,
the rendered channels `l, _r` are bound and never used afterwards: the
second smoothing reads the ideal `signal` again, so the "rendered" column
is another copy of the ideal column. -/
def heatmap_step (engine : Engine) (shape : String) (length_sec : ℝ)
    (samples : ℤ) (harmonics : ℕ) (smooth_samples : ℕ) (note : ℤ) :
    List EngineEvent × Except String (List ℂ × List ℂ) :=
  let freq := freq_for note
  if samples < 0 then
    ([], .error "ValueError: Number of samples must be non-negative")
  else
    let _ts := linspace 0 length_sec samples.toNat
    match create_saw SAMPLE_RATE samples freq harmonics none with
    | .error e => ([], .error e)
    | .ok signal =>
      match smooth_edges signal smooth_samples with
      | .error e => ([], .error e)
      | .ok signal_smooth =>
        match fft signal_smooth SAMPLE_RATE with
        | .error e => ([], .error e)
        | .ok pr =>
          match initialize_synth shape with
          | (evs, .error e) => (evs, .error e)
          | (evs, .ok _) =>
            let evs := evs ++ [.noteOn note, .render 1024 samples shape,
              .noteOff note]
            let _lr := engine note 1024 samples shape
            match smooth_edges signal smooth_samples with
            | .error e => (evs, .error e)
            | .ok signal_smooth2 =>
              match fft signal_smooth2 SAMPLE_RATE with
              | .error e => (evs, .error e)
              | .ok pr2 => (evs, .ok (pr.2, pr2.2))

/-- The accumulator step of `heatmap`'s note loop: an exception aborts the
sweep, otherwise the two column lists each grow by one column. -/
def heatmap_fold_step (engine : Engine) (shape : String) (length_sec : ℝ)
    (samples : ℤ) (harmonics smooth_samples : ℕ)
    (acc : List EngineEvent × Except String (List (List ℂ) × List (List ℂ)))
    (note : ℤ) :
    List EngineEvent × Except String (List (List ℂ) × List (List ℂ)) :=
  match acc with
  | (tr, .error e) => (tr, .error e)
  | (tr, .ok ms) =>
    match heatmap_step engine shape length_sec samples harmonics smooth_samples note with
    | (evs, .error e) => (tr ++ evs, .error e)
    | (evs, .ok cols) => (tr ++ evs, .ok (ms.1 ++ [cols.1], ms.2 ++ [cols.2]))

/-- Python `range(a, b)` over integers. -/
def intRange (a b : ℤ) : List ℤ :=
  (List.range (b - a).toNat).map (fun (i : ℕ) => a + i)

/-- The mapping, at the top of `heatmap`, from the normalized shape name to
the harmonic count of the engine's additive-synthesis table
(`SOFT_SAW_HARMONICS = 8`, `HARD_SAW_HARMONICS = 64`); unsupported shapes
raise here, before the sweep loop. -/
def shape_harmonics (s : String) : Except String ℕ :=
  if s = "sine" then .ok 1
  else if s = "softsaw" then .ok 8
  else if s = "hardsaw" then .ok 64
  else .error ("ValueError: Unsupported shape: " ++ s)

/-- `heatmap` from `analyze.py` (sweep mode), with plotting stripped:
normalizes and validates the shape (mapping it to the harmonic count
`sine → 1`, `softsaw → 8`, `hardsaw → 64`) before any note is processed,
then folds over the notes in `[note_start, note_end)` accumulating the
engine-call trace and the ideal/"rendered" spectra column lists.  The final
seaborn display transposes the matrices; the returned lists hold one column
per note.  `chunk_size` is hard-coded to `1024` in the source. -/
def heatmap (engine : Engine) (shape : String) (length_sec : ℝ)
    (note_start note_end : ℤ) (smooth_samples : ℕ) :
    List EngineEvent × Except String (List (List ℂ) × List (List ℂ)) :=
  let samples : ℤ := pyInt (length_sec * SAMPLE_RATE)
  let s := pyNormalize shape
  match shape_harmonics s with
  | .error e => ([], .error e)
  | .ok harmonics =>
    (intRange note_start note_end).foldl
      (heatmap_fold_step engine s length_sec samples harmonics smooth_samples)
      ([], .ok ([], []))

/-! ## Theorems -/

/-- C9: `freq_for note = 440 · 2^((note − 69)/12)`; hence `freq_for 69 = 440`,
`freq_for 81 = 880` (an octave doubles the frequency), and `freq_for` is
strictly increasing; being a Lean function over all integers it is total. -/
theorem freq_for_spec :
    freq_for 69 = 440.0 ∧ freq_for 81 = 880.0 ∧
    ∀ m n : ℤ, m < n → freq_for m < freq_for n := by
  refine ⟨?_, ?_, ?_⟩
  · show (440.0 : ℝ) * (2.0 : ℝ) ^ ((((69 : ℤ) : ℝ) - 69) / 12.0) = 440.0
    norm_num
  · show (440.0 : ℝ) * (2.0 : ℝ) ^ ((((81 : ℤ) : ℝ) - 69) / 12.0) = 880.0
    norm_num
  · intro m n hmn
    unfold freq_for
    have h2 : (1 : ℝ) < 2.0 := by norm_num
    have : (((m : ℤ) : ℝ) - 69) / 12.0 < (((n : ℤ) : ℝ) - 69) / 12.0 := by
      have hmn' : ((m : ℤ) : ℝ) < ((n : ℤ) : ℝ) := by exact_mod_cast hmn
      have h12 : (0 : ℝ) < 12.0 := by norm_num
      exact div_lt_div_of_pos_right (by linarith) h12
    have := (Real.rpow_lt_rpow_left_iff h2).mpr this
    nlinarith [this]

/-- Witness for `freq_for_spec` at concrete notes. -/
theorem freq_for_spec_witness : freq_for 30 < freq_for 31 :=
  freq_for_spec.2.2 30 31 (by decide)

/-- C3 counterexample: `create_saw` performs no validation of the
fundamental frequency; with `f0 = -100 ≤ 0` (and valid rate and count) it
returns a Signal rather than raising. -/
theorem create_saw_no_f0_validation :
    ∃ l, create_saw 44100 4 (-100) 2 none = .ok l := by
  unfold create_saw
  norm_num

/-- C3 amended: `create_saw` raises only for `sample_rate = 0`
(`ZeroDivisionError` from `dt = 1.0 / sample_rate`) and, when the rate is
nonzero, for `n < 0` (`ValueError` from `np.zeros(n)`); for every other
input — in particular any `f0 ≤ 0` and any negative `sample_rate` — it
returns a Signal of the requested length. -/
theorem create_saw_validation (sr : ℝ) (n : ℤ) (f0 : ℝ) (h : ℕ) (c : Option ℝ) :
    (sr = 0 → create_saw sr n f0 h c = .error "ZeroDivisionError: float division by zero") ∧
    (sr ≠ 0 → n < 0 →
      create_saw sr n f0 h c = .error "ValueError: negative dimensions are not allowed") ∧
    (sr ≠ 0 → 0 ≤ n → ∃ l, create_saw sr n f0 h c = .ok l ∧ l.length = n.toNat) := by
  refine ⟨fun h0 => ?_, fun h0 hn => ?_, fun h0 hn => ?_⟩
  · unfold create_saw
    rw [if_pos h0]
  · unfold create_saw
    rw [if_neg h0, if_pos hn]
  · unfold create_saw
    rw [if_neg h0, if_neg (not_lt.mpr hn)]
    exact ⟨_, rfl, by rw [List.length_map, List.length_range]⟩

/-- Default-valued indexing into a mapped range. -/
theorem getD_map_range (f : ℕ → ℝ) (m i : ℕ) (hi : i < m) (d : ℝ) :
    ((List.range m).map f).getD i d = f i := by
  have h : i < ((List.range m).map f).length := by
    rw [List.length_map, List.length_range]; exact hi
  rw [List.getD_eq_getElem _ _ h, List.getElem_map, List.getElem_range]

/-- `linspace` always has exactly `num` samples. -/
theorem linspace_length (a b : ℝ) (num : ℕ) : (linspace a b num).length = num := by
  unfold linspace
  split
  · simp [*]
  · rw [List.length_map, List.length_range]

/-- The first sample of a nonempty `linspace` is the start value. -/
theorem linspace_first (a b : ℝ) (num : ℕ) (h : 1 ≤ num) (d : ℝ) :
    (linspace a b num).getD 0 d = a := by
  unfold linspace
  split
  · rfl
  · rw [getD_map_range _ _ _ (by omega)]
    norm_num

/-- For `num ≥ 2` the last sample of `linspace` is the stop value (note that
`np.linspace(x, y, 1)` is `[x]`, not `[y]`). -/
theorem linspace_last (a b : ℝ) (num : ℕ) (h : 2 ≤ num) (d : ℝ) :
    (linspace a b num).getD (num - 1) d = b := by
  unfold linspace
  rw [if_neg (by omega), getD_map_range _ _ _ (by omega)]
  have h2 : (2 : ℝ) ≤ (num : ℝ) := by exact_mod_cast h
  have hne : ((num : ℝ) - 1) ≠ 0 := by
    intro hz
    linarith
  push_cast [Nat.cast_sub (by omega : 1 ≤ num)]
  field_simp

/-- Default-valued indexing through `zipWith (· * ·)`. -/
theorem getD_zipWith_mul (a b : List ℝ) (i : ℕ) (ha : i < a.length) (hb : i < b.length) :
    (List.zipWith (· * ·) a b).getD i 0 = a.getD i 0 * b.getD i 0 := by
  have h : i < (List.zipWith (· * ·) a b).length := by
    rw [List.length_zipWith]; exact lt_min ha hb
  rw [List.getD_eq_getElem _ _ h, List.getElem_zipWith,
    List.getD_eq_getElem _ _ ha, List.getD_eq_getElem _ _ hb]

/-- Default-valued indexing through `take`. -/
theorem getD_take' (l : List ℝ) (m i : ℕ) (hi : i < m) (hl : i < l.length) :
    (l.take m).getD i 0 = l.getD i 0 := by
  have h : i < (l.take m).length := by
    rw [List.length_take]; exact lt_min hi hl
  rw [List.getD_eq_getElem _ _ h, List.getElem_take, List.getD_eq_getElem _ _ hl]

/-- Default-valued indexing through `drop`. -/
theorem getD_drop' (l : List ℝ) (m i : ℕ) (h : m + i < l.length) :
    (l.drop m).getD i 0 = l.getD (m + i) 0 := by
  have h' : i < (l.drop m).length := by
    rw [List.length_drop]; omega
  rw [List.getD_eq_getElem _ _ h', List.getElem_drop, List.getD_eq_getElem _ _ h]

/-- The conditional accumulation in `create_saw`'s inner loop, as a sum. -/
theorem foldl_ite_add {α : Type} (p : α → Prop) [DecidablePred p] (g : α → ℝ) (a : ℝ)
    (l : List α) :
    l.foldl (fun v x => if p x then v else v + g x) a
      = a + (l.map (fun x => if p x then 0 else g x)).sum := by
  induction l generalizing a with
  | nil => simp
  | cons x xs ih =>
    by_cases hx : p x
    · simp [List.foldl_cons, hx, ih]
    · simp [List.foldl_cons, hx, ih, add_assoc]

/-- Closed form of a successful `create_saw` run: sample `i` is the sum over
harmonics `k+1 = 1..H` of the band-limited sawtooth terms. -/
theorem create_saw_ok (sr : ℝ) (n : ℤ) (f0 : ℝ) (H : ℕ) (c : Option ℝ)
    (h0 : sr ≠ 0) (hn : 0 ≤ n) :
    create_saw sr n f0 H c = .ok ((List.range n.toNat).map (fun (i : ℕ) =>
      ((List.range H).map (fun (k : ℕ) =>
        if (if c.getD 0 = 0 then sr / 2 else c.getD 0) ≤ ((k + 1 : ℕ) : ℝ) * f0
        then 0
        else get_amp (k + 1) *
          (Real.sin (TAU * (((k + 1 : ℕ) : ℝ) * f0) * ((i : ℝ) * (1 / sr)))
            / ((k + 1 : ℕ) : ℝ)))).sum)) := by
  unfold create_saw
  rw [if_neg h0, if_neg (not_lt.mpr hn)]
  refine congrArg Except.ok (List.map_congr_left fun i _ => ?_)
  rw [foldl_ite_add
    (p := fun fc : FreqComponent =>
      (if c.getD 0 = 0 then sr / 2 else c.getD 0) ≤ fc.freq)
    (g := fun fc : FreqComponent =>
      fc.amp * (Real.sin (TAU * fc.freq * ((i : ℝ) * (1 / sr))) / fc.divisor)),
    List.map_map, zero_add]
  rfl

/-- C7: with `cut_at = 1.5 · f0`, every harmonic `h ≥ 2` is excluded and each
sample `i` equals the fundamental-only sine `sin(2π · f0 · i / sr)`. -/
theorem create_saw_fundamental_only (sr f0 : ℝ) (n : ℤ) (H : ℕ)
    (hf0 : 0 < f0) (hsr : 0 < sr) (hn : 0 ≤ n) (hH : 1 ≤ H) :
    ∃ l, create_saw sr n f0 H (some (1.5 * f0)) = .ok l ∧
      l.length = n.toNat ∧
      ∀ i : ℕ, i < n.toNat → l.getD i 0 = Real.sin (2 * Real.pi * f0 * (i : ℝ) / sr) := by
  obtain ⟨H', rfl⟩ : ∃ H', H = H' + 1 := ⟨H - 1, (Nat.succ_pred_eq_of_pos hH).symm⟩
  rw [create_saw_ok sr n f0 (H' + 1) (some (1.5 * f0)) (ne_of_gt hsr) hn]
  refine ⟨_, rfl, by rw [List.length_map, List.length_range], fun i hi => ?_⟩
  rw [getD_map_range _ _ _ hi]
  simp only [Option.getD_some]
  have hcut : ¬((1.5 : ℝ) * f0 = 0) := by positivity
  simp only [if_neg hcut]
  rw [List.range_succ_eq_map, List.map_cons, List.map_map, List.sum_cons]
  have hz : (List.map
      ((fun (k : ℕ) =>
        if (1.5 : ℝ) * f0 ≤ ((k + 1 : ℕ) : ℝ) * f0
        then 0
        else get_amp (k + 1) *
          (Real.sin (TAU * (((k + 1 : ℕ) : ℝ) * f0) * ((i : ℝ) * (1 / sr)))
            / ((k + 1 : ℕ) : ℝ))) ∘ Nat.succ)
      (List.range H')).sum = 0 := by
    refine List.sum_eq_zero fun x hx => ?_
    simp only [List.mem_map, Function.comp] at hx
    obtain ⟨j, _, rfl⟩ := hx
    have : (1.5 : ℝ) * f0 ≤ ((j.succ + 1 : ℕ) : ℝ) * f0 := by
      have h2 : (2 : ℝ) ≤ ((j.succ + 1 : ℕ) : ℝ) := by
        push_cast
        have : (0 : ℝ) ≤ (j : ℝ) := Nat.cast_nonneg j
        linarith
      nlinarith
    rw [if_pos this]
  rw [hz, add_zero]
  have hno : ¬((1.5 : ℝ) * f0 ≤ ((0 + 1 : ℕ) : ℝ) * f0) := by
    push_cast
    nlinarith
  rw [if_neg hno]
  have hamp : get_amp (0 + 1) = 1 := by unfold get_amp; norm_num
  rw [hamp, one_mul]
  rw [show TAU * (((0 + 1 : ℕ) : ℝ) * f0) * ((i : ℝ) * (1 / sr))
        = 2 * Real.pi * f0 * (i : ℝ) / sr by
    unfold TAU
    push_cast
    field_simp
    try ring]
  push_cast
  norm_num

/-- Witness for `create_saw_fundamental_only` at a concrete input. -/
theorem create_saw_fundamental_only_witness :
    ∃ l, create_saw 44100 4 220 8 (some (1.5 * 220)) = .ok l ∧
      l.length = (4 : ℤ).toNat ∧
      ∀ i : ℕ, i < (4 : ℤ).toNat →
        l.getD i 0 = Real.sin (2 * Real.pi * 220 * (i : ℝ) / 44100) :=
  create_saw_fundamental_only 44100 220 4 8 (by norm_num) (by norm_num) (by decide)
    (by norm_num)

/-- Witness for `create_saw_validation` at concrete inputs. -/
theorem create_saw_validation_witness :
    create_saw 0 4 220 2 none = .error "ZeroDivisionError: float division by zero" ∧
    create_saw 44100 (-1) 220 2 none = .error "ValueError: negative dimensions are not allowed" ∧
    ∃ l, create_saw 44100 4 (-100) 2 none = .ok l ∧ l.length = (4 : ℤ).toNat :=
  ⟨(create_saw_validation 0 4 220 2 none).1 rfl,
   (create_saw_validation 44100 (-1) 220 2 none).2.1 (by norm_num) (by decide),
   (create_saw_validation 44100 4 (-100) 2 none).2.2 (by norm_num) (by decide)⟩

/-- C8 counterexample: for `rampLength = 1` and the signal `[1, 1]`
(nonzero first and last samples, `2·rampLength ≤ length`), `smooth_edges`
leaves the last sample at `1`, not `0`: `np.linspace(1.0, 0.0, 1) = [1.0]`,
so the falling ramp multiplies the last sample by `1`. -/
theorem smooth_edges_ramp_one_counterexample :
    ∃ l, smooth_edges [(1 : ℝ), 1] 1 = .ok l ∧ l.getD (l.length - 1) 0 ≠ 0 := by
  refine ⟨[0, 1], ?_, by norm_num⟩
  unfold smooth_edges linspace
  norm_num

/-- C8 amended: for a signal with nonzero first and last samples and
`2 ≤ rampLength` with `2·rampLength ≤ length`, `smooth_edges` preserves the
length, zeroes the first and last samples, and leaves every interior sample
(index `≥ rampLength` and `< length − rampLength`) unchanged.  (At
`rampLength = 1` only the first sample is zeroed; see the counterexample.) -/
theorem smooth_edges_spec (sig : List ℝ) (amt : ℕ)
    (h0 : sig.getD 0 0 ≠ 0) (hl : sig.getD (sig.length - 1) 0 ≠ 0)
    (h2 : 2 ≤ amt) (hlen : 2 * amt ≤ sig.length) :
    ∃ l, smooth_edges sig amt = .ok l ∧ l.length = sig.length ∧
      l.getD 0 0 = 0 ∧ l.getD (l.length - 1) 0 = 0 ∧
      ∀ i, amt ≤ i → i < sig.length - amt → l.getD i 0 = sig.getD i 0 := by
  obtain ⟨s0, rest, rfl⟩ : ∃ s0 rest, sig = s0 :: rest := by
    cases sig with
    | nil => simp at hlen; omega
    | cons a t => exact ⟨a, t, rfl⟩
  set sig := s0 :: rest with hsig
  set n := sig.length with hn
  have hs0 : s0 ≠ 0 := by simpa [hsig] using h0
  have hnlt : ¬(n < amt) := by omega
  have hZlen : (List.zipWith (· * ·) (sig.take amt) (linspace 0 1 amt)).length = amt := by
    rw [List.length_zipWith, List.length_take, linspace_length]
    omega
  set sig1 := List.zipWith (· * ·) (sig.take amt) (linspace 0 1 amt) ++ sig.drop amt
    with hsig1
  have hlen1 : sig1.length = n := by
    rw [hsig1, List.length_append, hZlen, List.length_drop]
    omega
  have hhigh : ∀ i, amt ≤ i → i < n → sig1.getD i 0 = sig.getD i 0 := by
    intro i hi1 hi2
    rw [hsig1, List.getD_append_right _ _ _ _ (by rw [hZlen]; exact hi1), hZlen]
    have hidx : amt + (i - amt) = i := by omega
    rw [getD_drop' _ _ _ (by omega), hidx]
  have hlow : ∀ i, i < amt →
      sig1.getD i 0 = sig.getD i 0 * (linspace 0 1 amt).getD i 0 := by
    intro i hi
    rw [hsig1, List.getD_append _ _ _ _ (by rw [hZlen]; exact hi),
      getD_zipWith_mul _ _ _ (by rw [List.length_take]; exact lt_min hi (by omega))
        (by rw [linspace_length]; exact hi),
      getD_take' _ _ _ hi (by omega)]
  have hlast1 : sig1.getD (sig1.length - 1) 0 ≠ 0 := by
    rw [hlen1, hhigh (n - 1) (by omega) (by omega)]
    exact hl
  unfold smooth_edges
  rw [if_neg (by omega : ¬amt = 0)]
  simp only [← hsig, ← hn, if_pos hs0, if_neg hnlt, ← hsig1, if_pos hlast1]
  refine ⟨_, rfl, ?_, ?_, ?_, ?_⟩
  · rw [List.length_append, List.length_take, List.length_zipWith, List.length_drop,
      linspace_length, hlen1]
    omega
  · have htlen : (sig1.take (n - amt)).length = n - amt := by
      rw [List.length_take, hlen1]
      omega
    rw [List.getD_append _ _ _ _ (by rw [htlen]; omega),
      getD_take' _ _ _ (by omega) (by rw [hlen1]; omega),
      hlow 0 (by omega), linspace_first _ _ _ (by omega), mul_zero]
  · have hreslen : (sig1.take (n - amt) ++
        List.zipWith (· * ·) (sig1.drop (n - amt)) (linspace 1 0 amt)).length = n := by
      rw [List.length_append, List.length_take, List.length_zipWith, List.length_drop,
        linspace_length, hlen1]
      omega
    rw [hreslen]
    have htlen : (sig1.take (n - amt)).length = n - amt := by
      rw [List.length_take, hlen1]
      omega
    rw [List.getD_append_right _ _ _ _ (by rw [htlen]; omega), htlen]
    have hidx : n - 1 - (n - amt) = amt - 1 := by omega
    rw [hidx,
      getD_zipWith_mul _ _ _ (by rw [List.length_drop, hlen1]; omega)
        (by rw [linspace_length]; omega),
      linspace_last _ _ _ h2, mul_zero]
  · intro i hi1 hi2
    have htlen : (sig1.take (n - amt)).length = n - amt := by
      rw [List.length_take, hlen1]
      omega
    rw [List.getD_append _ _ _ _ (by rw [htlen]; omega),
      getD_take' _ _ _ (by omega) (by rw [hlen1]; omega),
      hhigh i hi1 (by omega)]

/-- Witness for `smooth_edges_spec` at a concrete input. -/
theorem smooth_edges_spec_witness :
    ∃ l, smooth_edges [(1 : ℝ), 1, 5, 1, 1] 2 = .ok l ∧
      l.length = ([(1 : ℝ), 1, 5, 1, 1] : List ℝ).length ∧
      l.getD 0 0 = 0 ∧ l.getD (l.length - 1) 0 = 0 ∧
      ∀ i, 2 ≤ i → i < ([(1 : ℝ), 1, 5, 1, 1] : List ℝ).length - 2 →
        l.getD i 0 = ([(1 : ℝ), 1, 5, 1, 1] : List ℝ).getD i 0 :=
  smooth_edges_spec [(1 : ℝ), 1, 5, 1, 1] 2 (by norm_num) (by norm_num) (by norm_num)
    (by norm_num)

/-- C10: `smooth_edges` succeeds when `rampLength = 0`, and when
`1 ≤ rampLength ≤ length` on a nonempty signal; on an empty signal with
`rampLength > 0` it raises at the first-sample read, and when
`rampLength > length` with a nonzero first or last sample the ramp
multiplication over mismatched lengths raises. -/
theorem smooth_edges_safety (sig : List ℝ) (amt : ℕ) :
    (amt = 0 → smooth_edges sig amt = .ok sig) ∧
    (1 ≤ amt → amt ≤ sig.length → ∃ l, smooth_edges sig amt = .ok l) ∧
    (1 ≤ amt → sig = [] → ∃ e, smooth_edges sig amt = .error e) ∧
    (sig.length < amt → sig.getD 0 0 ≠ 0 ∨ sig.getD (sig.length - 1) 0 ≠ 0 →
      ∃ e, smooth_edges sig amt = .error e) := by
  refine ⟨fun h => by unfold smooth_edges; rw [if_pos h], ?_, ?_, ?_⟩
  · intro h1 hle
    obtain ⟨s0, rest, rfl⟩ : ∃ s0 rest, sig = s0 :: rest := by
      cases sig with
      | nil => simp at hle; omega
      | cons a t => exact ⟨a, t, rfl⟩
    unfold smooth_edges
    rw [if_neg (by omega : ¬amt = 0)]
    have hnlt : ¬((s0 :: rest).length < amt) := by omega
    by_cases hs0 : s0 ≠ 0
    · simp only [if_pos hs0, if_neg hnlt]
      split
      · exact ⟨_, rfl⟩
      · exact ⟨_, rfl⟩
    · simp only [if_neg hs0]
      split
      · exact ⟨_, rfl⟩
      · exact ⟨_, rfl⟩
  · intro h1 he
    subst he
    unfold smooth_edges
    rw [if_neg (by omega : ¬amt = 0)]
    exact ⟨_, rfl⟩
  · intro hlt hne
    obtain ⟨s0, rest, rfl⟩ : ∃ s0 rest, sig = s0 :: rest := by
      cases sig with
      | nil =>
        simp at hne
      | cons a t => exact ⟨a, t, rfl⟩
    unfold smooth_edges
    rw [if_neg (by omega : ¬amt = 0)]
    by_cases hs0 : s0 ≠ 0
    · simp only [if_pos hs0, if_pos hlt]
      exact ⟨_, rfl⟩
    · simp only [if_neg hs0]
      have hfirst : (s0 :: rest).getD 0 0 = s0 := rfl
      have hlast : (s0 :: rest).getD ((s0 :: rest).length - 1) 0 ≠ 0 := by
        rcases hne with h | h
        · exact absurd (by simpa [hfirst] using h) hs0
        · exact h
      rw [if_pos hlast, if_pos hlt]
      exact ⟨_, rfl⟩

/-- Every one-sided bin's modulus is bounded by the peak modulus. -/
theorem fft_abs_le_max (x : List ℝ) (k : ℕ) (hk : k < rfft_bins x) :
    Complex.abs (rfft_bin x k) ≤ fft_max x := by
  unfold fft_max
  exact Finset.le_sup' (fun j => Complex.abs (rfft_bin x j)) (Finset.mem_range.mpr hk)

/-- The peak modulus dominates the first bin's modulus, hence is nonnegative. -/
theorem fft_max_nonneg (x : List ℝ) : 0 ≤ fft_max x :=
  le_trans (AbsoluteValue.nonneg Complex.abs (rfft_bin x 0))
    (fft_abs_le_max x 0 (Nat.succ_pos _))

/-- The real part of each complex dB bin is the peak-relative magnitude in
dB, `20·log10(|Y[k]| / max)`. -/
theorem fft_db_re_eq (x : List ℝ) (k : ℕ) :
    (fft_db x k).re
      = 20 * Real.log (Complex.abs (rfft_bin x k) / fft_max x) / Real.log 10 := by
  unfold fft_db
  rw [show (10 : ℂ) = ((10 : ℝ) : ℂ) by norm_num,
    ← Complex.ofReal_log (by norm_num : (0 : ℝ) ≤ 10), Complex.div_ofReal_re]
  congr 1
  have h20 : ((20 : ℂ) * Complex.log (rfft_bin x k / ((fft_max x : ℝ) : ℂ))).re
      = 20 * (Complex.log (rfft_bin x k / ((fft_max x : ℝ) : ℂ))).re := by
    simp [Complex.mul_re]
  rw [h20, Complex.log_re]
  congr 2
  have habs : |fft_max x| = fft_max x := abs_of_nonneg (fft_max_nonneg x)
  rw [map_div₀, Complex.abs_ofReal, habs]

/-- The real part of each complex dB bin is nonpositive. -/
theorem fft_db_re_nonpos (x : List ℝ) (k : ℕ) (hk : k < rfft_bins x) :
    (fft_db x k).re ≤ 0 := by
  rw [fft_db_re_eq]
  have h10 : 0 < Real.log 10 := Real.log_pos (by norm_num)
  rcases lt_or_eq_of_le (fft_max_nonneg x) with hpos | h0
  · have h1 : Complex.abs (rfft_bin x k) / fft_max x ≤ 1 :=
      div_le_one_of_le₀ (fft_abs_le_max x k hk) (le_of_lt hpos)
    have hlog : Real.log (Complex.abs (rfft_bin x k) / fft_max x) ≤ 0 :=
      Real.log_nonpos (by positivity) h1
    have hnum : 20 * Real.log (Complex.abs (rfft_bin x k) / fft_max x) ≤ 0 := by linarith
    exact div_nonpos_of_nonpos_of_nonneg hnum (le_of_lt h10)
  · rw [← h0, div_zero, Real.log_zero, mul_zero, zero_div]

/-- C2 amended: the code takes `log10` of the complex quotient
`Y[k] / max|Y|` without a modulus, so each dB bin is a complex number whose
real part equals `20·log10(|Y[k]| / max|Y|)` and is `≤ 0`; the imaginary
part (the scaled argument of `Y[k]`) need not vanish, so the bin value
itself is in general not a real number. -/
theorem fft_db_spec (x : List ℝ) (_hx : ∃ j, j < x.length ∧ x.getD j 0 ≠ 0)
    (k : ℕ) (hk : k < rfft_bins x) :
    (fft_db x k).re
        = 20 * Real.log (Complex.abs (rfft_bin x k) / fft_max x) / Real.log 10 ∧
      (fft_db x k).re ≤ 0 :=
  ⟨fft_db_re_eq x k, fft_db_re_nonpos x k hk⟩

/-- Witness for `fft_db_spec` at a concrete signal and bin. -/
theorem fft_db_spec_witness :
    (fft_db [(0 : ℝ), 1] 0).re
        = 20 * Real.log (Complex.abs (rfft_bin [(0 : ℝ), 1] 0) / fft_max [(0 : ℝ), 1])
            / Real.log 10 ∧
      (fft_db [(0 : ℝ), 1] 0).re ≤ 0 :=
  fft_db_spec [(0 : ℝ), 1] ⟨1, by norm_num, by norm_num⟩ 0
    (by norm_num [rfft_bins])

/-- Concrete evaluation: bin 0 of `rfft([0, 1])` is `1`. -/
theorem rfft_bin_01_0 : rfft_bin [(0 : ℝ), 1] 0 = 1 := by
  unfold rfft_bin
  rw [show ([(0 : ℝ), 1] : List ℝ).length = 2 from rfl,
    Finset.sum_range_succ, Finset.sum_range_succ, Finset.sum_range_zero]
  norm_num

/-- Concrete evaluation: bin 1 of `rfft([0, 1])` is `−1`. -/
theorem rfft_bin_01_1 : rfft_bin [(0 : ℝ), 1] 1 = -1 := by
  unfold rfft_bin
  rw [show ([(0 : ℝ), 1] : List ℝ).length = 2 from rfl,
    Finset.sum_range_succ, Finset.sum_range_succ, Finset.sum_range_zero]
  norm_num
  rw [show -(2 * (Real.pi : ℂ) * Complex.I) / 2 = -(↑Real.pi * Complex.I) by ring,
    Complex.exp_neg, Complex.exp_pi_mul_I]
  norm_num

/-- Concrete evaluation: the peak modulus of `rfft([0, 1])` is `1`. -/
theorem fft_max_01 : fft_max [(0 : ℝ), 1] = 1 := by
  unfold fft_max
  apply le_antisymm
  · apply Finset.sup'_le
    intro k hk
    rw [Finset.mem_range, show rfft_bins [(0 : ℝ), 1] = 2 from rfl] at hk
    interval_cases k
    · rw [rfft_bin_01_0]; norm_num
    · rw [rfft_bin_01_1]; norm_num
  · have h := Finset.le_sup' (fun j => Complex.abs (rfft_bin [(0 : ℝ), 1] j))
      (Finset.mem_range.mpr (show 0 < rfft_bins [(0 : ℝ), 1] from Nat.succ_pos _))
    simpa [rfft_bin_01_0] using h

/-- C2 counterexample: for the signal `[0, 1]`, bin 1 has `Y[1] = −1` and
peak modulus `1`, so the code computes `20·log10(−1) = 20πi/ln 10`, a number
with nonzero imaginary part — not the real value `20·log10(|Y[1]|/max) = 0`
the claim asserts. -/
theorem fft_db_complex_counterexample : (fft_db [(0 : ℝ), 1] 1).im ≠ 0 := by
  unfold fft_db
  rw [rfft_bin_01_1, fft_max_01, show (((1 : ℝ) : ℂ)) = 1 by norm_num, div_one,
    Complex.log_neg_one,
    show (10 : ℂ) = ((10 : ℝ) : ℂ) by norm_num,
    ← Complex.ofReal_log (by norm_num : (0 : ℝ) ≤ 10),
    Complex.div_ofReal_im]
  have hlog : 0 < Real.log 10 := Real.log_pos (by norm_num)
  have him : ((20 : ℂ) * (↑Real.pi * Complex.I)).im = 20 * Real.pi := by
    simp [Complex.mul_im]
  rw [him]
  exact ne_of_gt (div_pos (by positivity) hlog)

/-- Twiddle-factor orthogonality: for `j, m < n` the geometric sum over one
period vanishes unless the indices agree. -/
theorem dft_orthogonality (n j m : ℕ) (hj : j < n) (hm : m < n) :
    (∑ k in Finset.range n,
        Complex.exp ((2 * (Real.pi : ℂ) * Complex.I) * ((j : ℂ) - m) * k / n))
      = if j = m then (n : ℂ) else 0 := by
  have hn0 : n ≠ 0 := by omega
  have hnC : (n : ℂ) ≠ 0 := Nat.cast_ne_zero.mpr hn0
  by_cases hjm : j = m
  · subst hjm
    rw [if_pos rfl]
    have hone : ∀ k ∈ Finset.range n,
        Complex.exp ((2 * (Real.pi : ℂ) * Complex.I) * ((j : ℂ) - j) * k / n) = 1 := by
      intro k _
      rw [sub_self, show (2 * (Real.pi : ℂ) * Complex.I) * 0 * k / n = 0 by ring,
        Complex.exp_zero]
    rw [Finset.sum_congr rfl hone]
    simp
  · rw [if_neg hjm]
    have h2πI : (2 * (Real.pi : ℂ) * Complex.I) ≠ 0 := by
      have hπ : ((Real.pi : ℝ) : ℂ) ≠ 0 := Complex.ofReal_ne_zero.mpr Real.pi_ne_zero
      exact mul_ne_zero (mul_ne_zero (by norm_num) hπ) Complex.I_ne_zero
    set ζ := Complex.exp ((2 * (Real.pi : ℂ) * Complex.I) * ((j : ℂ) - m) / n) with hζ
    have hterm : ∀ k ∈ Finset.range n,
        Complex.exp ((2 * (Real.pi : ℂ) * Complex.I) * ((j : ℂ) - m) * k / n)
          = ζ ^ k := by
      intro k _
      rw [hζ, ← Complex.exp_nat_mul]
      congr 1
      ring
    have hζn : ζ ^ n = 1 := by
      rw [hζ, ← Complex.exp_nat_mul,
        show (n : ℂ) * ((2 * (Real.pi : ℂ) * Complex.I) * ((j : ℂ) - m) / n)
          = (((j : ℤ) - m : ℤ) : ℂ) * (2 * (Real.pi : ℂ) * Complex.I) by
            push_cast
            field_simp
            ring]
      exact Complex.exp_int_mul_two_pi_mul_I ((j : ℤ) - m)
    have hζ1 : ζ ≠ 1 := by
      rw [hζ]
      intro hone
      rw [Complex.exp_eq_one_iff] at hone
      obtain ⟨z, hz⟩ := hone
      have hz' : (2 * (Real.pi : ℂ) * Complex.I) * (((j : ℂ) - m) / n)
          = (2 * (Real.pi : ℂ) * Complex.I) * z := by
        rw [← mul_div_assoc, hz]
        ring
      have hdiv : ((j : ℂ) - m) / n = z := mul_left_cancel₀ h2πI hz'
      have hzn : (j : ℂ) - m = z * n := (div_eq_iff hnC).mp hdiv
      have hZ : (j : ℤ) - m = z * n := by exact_mod_cast hzn
      have hjZ : (j : ℤ) < n := by exact_mod_cast hj
      have hmZ : (m : ℤ) < n := by exact_mod_cast hm
      have hj0 : (0 : ℤ) ≤ j := Int.ofNat_nonneg j
      have hm0 : (0 : ℤ) ≤ m := Int.ofNat_nonneg m
      have hzne : z ≠ 0 := by
        intro h0
        rw [h0, zero_mul] at hZ
        exact hjm (by omega)
      rcases lt_or_gt_of_ne hzne with hneg | hpos
      · have h1 : z ≤ -1 := by omega
        have : z * n ≤ -1 * n := by
          apply mul_le_mul_of_nonneg_right h1
          omega
        omega
      · have h1 : 1 ≤ z := by omega
        have : 1 * (n : ℤ) ≤ z * n := by
          apply mul_le_mul_of_nonneg_right h1
          omega
        omega
    rw [Finset.sum_congr rfl hterm, geom_sum_eq hζ1, hζn]
    simp

/-- Conjugate symmetry of the DFT of a real signal: `Y[n−k] = conj Y[k]`,
so the one-sided bins `k ≤ n/2` determine the whole spectrum. -/
theorem rfft_bin_conj_symm (x : List ℝ) (k : ℕ) (hk : k ≤ x.length) :
    rfft_bin x (x.length - k) = starRingEnd ℂ (rfft_bin x k) := by
  by_cases hn : x.length = 0
  · unfold rfft_bin
    rw [hn]
    simp
  unfold rfft_bin
  rw [map_sum]
  refine Finset.sum_congr rfl fun j hj => ?_
  rw [Finset.mem_range] at hj
  have hnC : ((x.length : ℕ) : ℂ) ≠ 0 := Nat.cast_ne_zero.mpr hn
  rw [map_mul, Complex.conj_ofReal]
  congr 1
  rw [← Complex.exp_conj]
  have hconj : (starRingEnd ℂ) (-(2 * (Real.pi : ℂ) * Complex.I) * j * k / x.length)
      = (2 * (Real.pi : ℂ) * Complex.I) * j * k / x.length := by
    simp only [map_div₀, map_mul, map_neg, Complex.conj_I, Complex.conj_ofReal,
      map_natCast, map_ofNat]
    ring
  rw [hconj]
  have hcast : ((x.length - k : ℕ) : ℂ) = (x.length : ℂ) - k := by
    push_cast [hk]
    ring
  rw [hcast,
    show -(2 * (Real.pi : ℂ) * Complex.I) * j * ((x.length : ℂ) - k) / x.length
        = (2 * (Real.pi : ℂ) * Complex.I) * j * k / x.length
          + ((-(j : ℤ) : ℤ) : ℂ) * (2 * (Real.pi : ℂ) * Complex.I) from by
      push_cast
      field_simp
      ring,
    Complex.exp_add, Complex.exp_int_mul_two_pi_mul_I, mul_one]

/-- DFT inversion: summing all `n` bins against the inverse twiddle factors
recovers `n · x[j]`. -/
theorem dft_inversion (x : List ℝ) (j : ℕ) (hj : j < x.length) :
    (∑ k in Finset.range x.length,
        rfft_bin x k
          * Complex.exp ((2 * (Real.pi : ℂ) * Complex.I) * j * k / x.length))
      = (x.length : ℂ) * (x.getD j 0 : ℂ) := by
  unfold rfft_bin
  have hstep : ∀ k ∈ Finset.range x.length,
      (∑ m in Finset.range x.length,
          (x.getD m 0 : ℂ)
            * Complex.exp (-(2 * (Real.pi : ℂ) * Complex.I) * m * k / x.length))
        * Complex.exp ((2 * (Real.pi : ℂ) * Complex.I) * j * k / x.length)
      = ∑ m in Finset.range x.length,
          (x.getD m 0 : ℂ)
            * Complex.exp
                ((2 * (Real.pi : ℂ) * Complex.I) * ((j : ℂ) - m) * k / x.length) := by
    intro k _
    rw [Finset.sum_mul]
    refine Finset.sum_congr rfl fun m _ => ?_
    rw [mul_assoc, ← Complex.exp_add]
    congr 2
    ring
  rw [Finset.sum_congr rfl hstep, Finset.sum_comm]
  have hinner : ∀ m ∈ Finset.range x.length,
      (∑ k in Finset.range x.length,
          (x.getD m 0 : ℂ)
            * Complex.exp
                ((2 * (Real.pi : ℂ) * Complex.I) * ((j : ℂ) - m) * k / x.length))
      = if j = m then (x.length : ℂ) * (x.getD m 0 : ℂ) else 0 := by
    intro m hm
    rw [← Finset.mul_sum, dft_orthogonality x.length j m hj (Finset.mem_range.mp hm)]
    split
    · ring
    · ring
  rw [Finset.sum_congr rfl hinner, Finset.sum_ite_eq, if_pos (Finset.mem_range.mpr hj)]

/-- A signal with a nonzero sample has a nonzero one-sided bin: otherwise,
by conjugate symmetry the whole spectrum would vanish and DFT inversion
would force the signal to vanish.  Hence the peak modulus is positive. -/
theorem fft_max_pos (x : List ℝ) (hx : ∃ j, j < x.length ∧ x.getD j 0 ≠ 0) :
    0 < fft_max x := by
  rcases hx with ⟨j, hj, hxj⟩
  rcases lt_or_eq_of_le (fft_max_nonneg x) with h | h
  · exact h
  exfalso
  have hzero : ∀ k, k < rfft_bins x → rfft_bin x k = 0 := by
    intro k hk
    have h1 : Complex.abs (rfft_bin x k) ≤ 0 := h ▸ fft_abs_le_max x k hk
    have h2 : 0 ≤ Complex.abs (rfft_bin x k) := AbsoluteValue.nonneg _ _
    exact (AbsoluteValue.eq_zero Complex.abs).mp (le_antisymm h1 h2)
  have hall : ∀ k, k < x.length → rfft_bin x k = 0 := by
    intro k hk
    by_cases hk2 : k < rfft_bins x
    · exact hzero k hk2
    · have hk' : x.length - k < rfft_bins x := by
        unfold rfft_bins at hk2 ⊢
        omega
      have hkk : x.length - (x.length - k) = k := by omega
      have hsym := rfft_bin_conj_symm x (x.length - k) (by omega)
      rw [hkk, hzero _ hk'] at hsym
      rw [hsym]
      simp
  have hinv := dft_inversion x j hj
  rw [Finset.sum_congr rfl (fun k hk => by
    rw [hall k (Finset.mem_range.mp hk), zero_mul])] at hinv
  rw [Finset.sum_const_zero] at hinv
  have hnne : ((x.length : ℕ) : ℂ) ≠ 0 := Nat.cast_ne_zero.mpr (by omega)
  have hxne : ((x.getD j 0 : ℝ) : ℂ) ≠ 0 := Complex.ofReal_ne_zero.mpr hxj
  exact (mul_ne_zero hnne hxne) hinv.symm

/-- C4 amended: for every non-all-zero signal the real parts of the complex
dB spectrum attain their maximum at exactly `0` (some bin has real part `0`,
no bin's real part exceeds `0`); the bin values themselves are complex, so
the claim holds of their real parts rather than of the values. -/
theorem fft_peak_spec (x : List ℝ) (hx : ∃ j, j < x.length ∧ x.getD j 0 ≠ 0) :
    (∃ k, k < rfft_bins x ∧ (fft_db x k).re = 0) ∧
    (∀ k, k < rfft_bins x → (fft_db x k).re ≤ 0) := by
  have hpos := fft_max_pos x hx
  refine ⟨?_, fun k hk => fft_db_re_nonpos x k hk⟩
  obtain ⟨b, hb, hsup⟩ := Finset.exists_mem_eq_sup'
    (Finset.nonempty_range_iff.mpr (Nat.succ_ne_zero (x.length / 2)))
    (fun k => Complex.abs (rfft_bin x k))
  have hmax : fft_max x = Complex.abs (rfft_bin x b) := hsup
  refine ⟨b, Finset.mem_range.mp hb, ?_⟩
  have hpos' : 0 < Complex.abs (rfft_bin x b) := hmax ▸ hpos
  rw [fft_db_re_eq, hmax, div_self (ne_of_gt hpos'), Real.log_one, mul_zero, zero_div]

/-- Witness for `fft_peak_spec` at a concrete signal. -/
theorem fft_peak_spec_witness :
    (∃ k, k < rfft_bins [(0 : ℝ), 1] ∧ (fft_db [(0 : ℝ), 1] k).re = 0) ∧
    (∀ k, k < rfft_bins [(0 : ℝ), 1] → (fft_db [(0 : ℝ), 1] k).re ≤ 0) :=
  fft_peak_spec [(0 : ℝ), 1] ⟨1, by norm_num, by norm_num⟩

/-- `exp(iθ)` for a real angle, in rectangular form. -/
theorem exp_real_mul_I (θ : ℝ) :
    Complex.exp ((θ : ℂ) * Complex.I)
      = (Real.cos θ : ℂ) + (Real.sin θ : ℂ) * Complex.I := by
  rw [Complex.exp_mul_I, Complex.ofReal_cos, Complex.ofReal_sin]

/-- `cos(2π/3) = −1/2`. -/
theorem cos_two_pi_div_three : Real.cos (2 * Real.pi / 3) = -(1 / 2) := by
  rw [show (2 * Real.pi / 3 : ℝ) = Real.pi - Real.pi / 3 by ring, Real.cos_pi_sub,
    Real.cos_pi_div_three]

/-- `sin(2π/3) = √3/2`. -/
theorem sin_two_pi_div_three : Real.sin (2 * Real.pi / 3) = Real.sqrt 3 / 2 := by
  rw [show (2 * Real.pi / 3 : ℝ) = Real.pi - Real.pi / 3 by ring, Real.sin_pi_sub,
    Real.sin_pi_div_three]

/-- `cos(4π/3) = −1/2`. -/
theorem cos_four_pi_div_three : Real.cos (4 * Real.pi / 3) = -(1 / 2) := by
  rw [show (4 * Real.pi / 3 : ℝ) = Real.pi + Real.pi / 3 by ring, Real.cos_add,
    Real.cos_pi, Real.sin_pi, Real.cos_pi_div_three]
  ring

/-- `sin(4π/3) = −√3/2`. -/
theorem sin_four_pi_div_three : Real.sin (4 * Real.pi / 3) = -(Real.sqrt 3 / 2) := by
  rw [show (4 * Real.pi / 3 : ℝ) = Real.pi + Real.pi / 3 by ring, Real.sin_add,
    Real.cos_pi, Real.sin_pi, Real.sin_pi_div_three]
  ring

/-- Concrete evaluation: bin 0 of `rfft([1, 1, −1])` is `1`. -/
theorem rfft_bin_sig3_0 : rfft_bin [(1 : ℝ), 1, -1] 0 = 1 := by
  unfold rfft_bin
  rw [show ([(1 : ℝ), 1, -1] : List ℝ).length = 3 from rfl,
    Finset.sum_range_succ, Finset.sum_range_succ, Finset.sum_range_succ,
    Finset.sum_range_zero]
  norm_num

/-- Concrete evaluation: bin 1 of `rfft([1, 1, −1])` is `1 − √3·i`. -/
theorem rfft_bin_sig3_1 :
    rfft_bin [(1 : ℝ), 1, -1] 1 = 1 - Real.sqrt 3 * Complex.I := by
  unfold rfft_bin
  rw [show ([(1 : ℝ), 1, -1] : List ℝ).length = 3 from rfl,
    Finset.sum_range_succ, Finset.sum_range_succ, Finset.sum_range_succ,
    Finset.sum_range_zero]
  norm_num
  rw [show -(2 * (Real.pi : ℂ) * Complex.I) / 3
        = ((-(2 * Real.pi / 3) : ℝ) : ℂ) * Complex.I by push_cast; ring,
    show -(2 * (Real.pi : ℂ) * Complex.I * 2) / 3
        = ((-(4 * Real.pi / 3) : ℝ) : ℂ) * Complex.I by push_cast; ring,
    exp_real_mul_I, exp_real_mul_I, Real.cos_neg, Real.sin_neg, Real.cos_neg,
    Real.sin_neg, cos_two_pi_div_three, sin_two_pi_div_three, cos_four_pi_div_three,
    sin_four_pi_div_three]
  push_cast
  ring

/-- `|1 − √3·i| = 2`. -/
theorem abs_one_sub_sqrt3_I : Complex.abs (1 - Real.sqrt 3 * Complex.I) = 2 := by
  rw [Complex.abs_apply, Complex.normSq_apply]
  have hre : (1 - (Real.sqrt 3 : ℂ) * Complex.I).re = 1 := by simp
  have him : (1 - (Real.sqrt 3 : ℂ) * Complex.I).im = -Real.sqrt 3 := by simp
  rw [hre, him]
  have h3 : Real.sqrt 3 * Real.sqrt 3 = 3 := Real.mul_self_sqrt (by norm_num)
  rw [show (1 : ℝ) * 1 + -Real.sqrt 3 * -Real.sqrt 3 = 1 + Real.sqrt 3 * Real.sqrt 3 by
      ring,
    h3, show (1 : ℝ) + 3 = 4 by norm_num, show (4 : ℝ) = 2 ^ 2 by norm_num,
    Real.sqrt_sq (by norm_num)]

/-- Concrete evaluation: the peak modulus of `rfft([1, 1, −1])` is `2`. -/
theorem fft_max_sig3 : fft_max [(1 : ℝ), 1, -1] = 2 := by
  unfold fft_max
  apply le_antisymm
  · apply Finset.sup'_le
    intro k hk
    rw [Finset.mem_range, show rfft_bins [(1 : ℝ), 1, -1] = 2 from rfl] at hk
    interval_cases k
    · rw [rfft_bin_sig3_0]; norm_num
    · rw [rfft_bin_sig3_1, abs_one_sub_sqrt3_I]
  · have h := Finset.le_sup' (fun j => Complex.abs (rfft_bin [(1 : ℝ), 1, -1] j))
      (Finset.mem_range.mpr (show 1 < rfft_bins [(1 : ℝ), 1, -1] by norm_num [rfft_bins]))
    simpa [rfft_bin_sig3_1, abs_one_sub_sqrt3_I] using h

/-- C4 counterexample: for the signal `[1, 1, −1]` no bin of the complex dB
spectrum equals `0`: bin 0 is the nonzero real `20·log10(1/2)` and bin 1 is
`20·log10((1 − √3·i)/2)`, which has nonzero imaginary part.  So no bin's
value is exactly `0 dB`. -/
theorem fft_db_no_zero_bin_counterexample :
    fft_db [(1 : ℝ), 1, -1] 0 ≠ 0 ∧ fft_db [(1 : ℝ), 1, -1] 1 ≠ 0 := by
  have hlog10 : (Complex.log 10) = ((Real.log 10 : ℝ) : ℂ) := by
    rw [show (10 : ℂ) = ((10 : ℝ) : ℂ) by norm_num,
      ← Complex.ofReal_log (by norm_num : (0 : ℝ) ≤ 10)]
  have hlog10ne : Complex.log 10 ≠ 0 := by
    rw [hlog10]
    exact Complex.ofReal_ne_zero.mpr (ne_of_gt (Real.log_pos (by norm_num)))
  constructor
  · unfold fft_db
    rw [rfft_bin_sig3_0, fft_max_sig3]
    intro h
    rcases div_eq_zero_iff.mp h with h1 | h2
    · rcases mul_eq_zero.mp h1 with h3 | h4
      · norm_num at h3
      · rw [show (1 : ℂ) / (((2 : ℝ)) : ℂ) = (((1 / 2 : ℝ)) : ℂ) by push_cast; ring,
          ← Complex.ofReal_log (by norm_num : (0 : ℝ) ≤ 1 / 2)] at h4
        rw [Complex.ofReal_eq_zero] at h4
        rcases Real.log_eq_zero.mp h4 with h | h | h <;> norm_num at h
    · exact hlog10ne h2
  · unfold fft_db
    rw [rfft_bin_sig3_1, fft_max_sig3]
    set z : ℂ := (1 - Real.sqrt 3 * Complex.I) / ((2 : ℝ) : ℂ) with hz
    have hs3 : (0 : ℝ) < Real.sqrt 3 := Real.sqrt_pos.mpr (by norm_num)
    have hzim : z.im = -(Real.sqrt 3 / 2) := by
      rw [hz, Complex.div_ofReal_im]
      simp
      try ring
    have hz0 : z ≠ 0 := by
      intro h
      rw [h] at hzim
      simp at hzim
    intro h
    rcases div_eq_zero_iff.mp h with h1 | h2
    · rcases mul_eq_zero.mp h1 with h3 | h4
      · norm_num at h3
      · have hexp := Complex.exp_log hz0
        rw [h4, Complex.exp_zero] at hexp
        have him1 : z.im = 0 := by rw [← hexp]; simp
        rw [hzim] at him1
        linarith
    · exact hlog10ne h2

/-- Witness for `smooth_edges_safety` at concrete inputs. -/
theorem smooth_edges_safety_witness :
    smooth_edges [(1 : ℝ), 1, 1] 0 = .ok [(1 : ℝ), 1, 1] ∧
    (∃ l, smooth_edges [(1 : ℝ), 1, 1] 2 = .ok l) ∧
    (∃ e, smooth_edges ([] : List ℝ) 1 = .error e) ∧
    (∃ e, smooth_edges [(1 : ℝ), 1] 3 = .error e) :=
  ⟨(smooth_edges_safety [(1 : ℝ), 1, 1] 0).1 rfl,
   (smooth_edges_safety [(1 : ℝ), 1, 1] 2).2.1 (by norm_num) (by norm_num),
   (smooth_edges_safety ([] : List ℝ) 1).2.2.1 (by norm_num) rfl,
   (smooth_edges_safety [(1 : ℝ), 1] 3).2.2.2 (by norm_num) (Or.inl (by norm_num))⟩

/-- C5: for every shape whose lower-cased, stripped form is none of
`sine`, `softsaw`, `hardsaw`, `heatmap` raises the unsupported-shape error
with an empty engine trace — before any synthesis or rendering — and
produces no matrices, partial or otherwise. -/
theorem heatmap_validates_shape_first (engine : Engine) (shape : String)
    (length_sec : ℝ) (ns ne : ℤ) (ss : ℕ)
    (h1 : pyNormalize shape ≠ "sine") (h2 : pyNormalize shape ≠ "softsaw")
    (h3 : pyNormalize shape ≠ "hardsaw") :
    heatmap engine shape length_sec ns ne ss
      = ([], .error ("ValueError: Unsupported shape: " ++ pyNormalize shape)) := by
  unfold heatmap shape_harmonics
  dsimp only
  rw [if_neg h1, if_neg h2, if_neg h3]

/-- Witness for `heatmap_validates_shape_first` with shape `triangle`. -/
theorem heatmap_validates_shape_first_witness :
    heatmap (fun _ _ _ _ => ([], [])) "triangle" 1 30 32 500
      = ([], .error ("ValueError: Unsupported shape: " ++ pyNormalize "triangle")) :=
  heatmap_validates_shape_first (fun _ _ _ _ => ([], [])) "triangle" 1 30 32 500
    (by decide) (by decide) (by decide)

/-- Per-note: the "rendered" spectra column equals the ideal column, because
the source re-smooths and re-analyzes `signal` instead of the engine's left
channel. -/
theorem heatmap_step_rendered_eq_ideal (engine : Engine) (shape : String)
    (length_sec : ℝ) (samples : ℤ) (harmonics ss : ℕ) (note : ℤ) :
    (heatmap_step engine shape length_sec samples harmonics ss note).2.map
        (fun p => (p.1, p.1))
      = (heatmap_step engine shape length_sec samples harmonics ss note).2 := by
  unfold heatmap_step
  by_cases h0 : samples < 0
  · rw [if_pos h0]
    rfl
  · rw [if_neg h0]
    dsimp only
    cases hcs : create_saw SAMPLE_RATE samples (freq_for note) harmonics none with
    | error e => rfl
    | ok signal =>
      dsimp only
      cases hsm : smooth_edges signal ss with
      | error e => rfl
      | ok ssm =>
        dsimp only
        cases hff : fft ssm SAMPLE_RATE with
        | error e => rfl
        | ok pr =>
          dsimp only
          cases hin : initialize_synth shape with
          | mk evs r =>
            cases r with
            | error e => rfl
            | ok u => rfl

/-- Per-note: the step's outcome does not depend on the engine at all: the
rendered audio is bound and dropped. -/
theorem heatmap_step_engine_irrelevant (e1 e2 : Engine) (shape : String)
    (length_sec : ℝ) (samples : ℤ) (harmonics ss : ℕ) (note : ℤ) :
    heatmap_step e1 shape length_sec samples harmonics ss note
      = heatmap_step e2 shape length_sec samples harmonics ss note := rfl

/-- The sweep fold preserves "rendered column list = ideal column list". -/
theorem heatmap_fold_invariant (engine : Engine) (shape : String)
    (length_sec : ℝ) (samples : ℤ) (harmonics ss : ℕ) :
    ∀ (notes : List ℤ) (tr : List EngineEvent)
      (res : Except String (List (List ℂ) × List (List ℂ))),
      res.map (fun p => (p.1, p.1)) = res →
      ((notes.foldl (heatmap_fold_step engine shape length_sec samples harmonics ss)
          (tr, res)).2.map (fun p => (p.1, p.1))
        = (notes.foldl (heatmap_fold_step engine shape length_sec samples harmonics ss)
            (tr, res)).2) := by
  intro notes
  induction notes with
  | nil => intro tr res h; simpa using h
  | cons note rest ih =>
    intro tr res h
    rw [List.foldl_cons]
    cases res with
    | error e => exact ih tr (.error e) h
    | ok ms =>
      obtain ⟨mi, mr⟩ := ms
      have hmm : mr = mi := by
        simp only [Except.map] at h
        injection h with h'
        have := congrArg Prod.snd h'
        simpa using this.symm
      subst hmm
      cases hstep : heatmap_step engine shape length_sec samples harmonics ss note with
      | mk evs r =>
        cases r with
        | error e =>
          have hred : heatmap_fold_step engine shape length_sec samples harmonics ss
              (tr, .ok (mr, mr)) note = (tr ++ evs, .error e) := by
            unfold heatmap_fold_step
            rw [hstep]
          rw [hred]
          exact ih _ _ rfl
        | ok cols =>
          obtain ⟨ci, cr⟩ := cols
          have hcc : cr = ci := by
            have h2 := heatmap_step_rendered_eq_ideal engine shape length_sec samples
              harmonics ss note
            rw [hstep] at h2
            simp only [Except.map] at h2
            injection h2 with h3
            have := congrArg Prod.snd h3
            simpa using this.symm
          subst hcc
          have hred : heatmap_fold_step engine shape length_sec samples harmonics ss
              (tr, .ok (mr, mr)) note = (tr ++ evs, .ok (mr ++ [cr], mr ++ [cr])) := by
            unfold heatmap_fold_step
            rw [hstep]
          rw [hred]
          exact ih _ _ rfl

/-- C1 (code bug): the sweep's entire output — trace and both matrices — is
independent of the engine collaborator, and the "rendered" matrix is the
ideal matrix again: `heatmap` binds the engine's left channel `l` and never
reads it, re-smoothing and re-analyzing the ideal `signal` instead.  The
claimed dependence of the rendered column on the engine's rendered Signal
is false of the code. -/
theorem heatmap_rendered_ignores_engine (e1 e2 : Engine) (shape : String)
    (length_sec : ℝ) (ns ne : ℤ) (ss : ℕ) :
    heatmap e1 shape length_sec ns ne ss = heatmap e2 shape length_sec ns ne ss ∧
    ((heatmap e1 shape length_sec ns ne ss).2.map (fun p => (p.1, p.1))
      = (heatmap e1 shape length_sec ns ne ss).2) := by
  constructor
  · rfl
  · unfold heatmap
    dsimp only
    cases shape_harmonics (pyNormalize shape) with
    | error e => rfl
    | ok harmonics =>
      exact heatmap_fold_invariant e1 (pyNormalize shape) length_sec
        (pyInt (length_sec * SAMPLE_RATE)) harmonics ss (intRange ns ne) []
        (.ok ([], [])) rfl

/-- The single-note mode's engine trace: either no engine call was made
(negative buffer length aborts first) or the calls are exactly the setup
parameters, `noteOn`, `render` — `plot_waves` never issues `noteOff`. -/
theorem plot_waves_trace (engine : Engine) (shape : String) (v : ℝ)
    (hv : shape_float shape = .ok v) (time_sec : ℝ) (note : ℤ) (ss : ℕ)
    (cs : ℤ) (c1 c2 : Option ℤ) :
    ((plot_waves engine time_sec note shape ss cs c1 c2).1 = [] ∨
      (plot_waves engine time_sec note shape ss cs c1 c2).1
        = initParams v
            ++ [.noteOn note, .render cs (pyInt (time_sec * SAMPLE_RATE)) shape]) := by
  unfold plot_waves
  dsimp only
  have hin : initialize_synth shape = (initParams v, .ok ()) := by
    unfold initialize_synth
    rw [hv]
  rw [hin]
  by_cases h0 : pyInt (time_sec * SAMPLE_RATE) < 0
  · rw [if_pos h0]
    left
    rfl
  · rw [if_neg h0]
    dsimp only
    right
    split
    · rfl
    · split
      · rfl
      · split
        · rfl
        · rfl

/-- The sweep mode's per-note engine trace: either no engine call was made
(the iteration aborted during ideal synthesis or analysis) or the calls are
exactly the setup parameters, `noteOn`, `render`, `noteOff`. -/
theorem heatmap_step_trace (engine : Engine) (shape : String) (v : ℝ)
    (hv : shape_float shape = .ok v) (length_sec : ℝ) (samples : ℤ)
    (harmonics ss : ℕ) (note : ℤ) :
    ((heatmap_step engine shape length_sec samples harmonics ss note).1 = [] ∨
      (heatmap_step engine shape length_sec samples harmonics ss note).1
        = initParams v
            ++ [.noteOn note, .render 1024 samples shape, .noteOff note]) := by
  unfold heatmap_step
  dsimp only
  have hin : initialize_synth shape = (initParams v, .ok ()) := by
    unfold initialize_synth
    rw [hv]
  rw [hin]
  split
  · left; rfl
  · split
    · left; rfl
    · split
      · left; rfl
      · split
        · left; rfl
        · dsimp only
          right
          repeat' split
          all_goals rfl

/-- C6 amended: with a valid shape, every per-note engine interaction in
sweep mode that reaches the engine follows
`updateParam… → noteOn → render → noteOff`, while in single-note mode the
interaction is `updateParam… → noteOn → render` and `noteOff` is never
invoked. -/
theorem engine_call_order (engine : Engine) (shape : String) (v : ℝ)
    (hv : shape_float shape = .ok v) (time_sec length_sec : ℝ) (note : ℤ)
    (ss : ℕ) (cs : ℤ) (c1 c2 : Option ℤ) (samples : ℤ) (harmonics : ℕ) :
    ((plot_waves engine time_sec note shape ss cs c1 c2).1 = [] ∨
      (plot_waves engine time_sec note shape ss cs c1 c2).1
        = initParams v
            ++ [.noteOn note, .render cs (pyInt (time_sec * SAMPLE_RATE)) shape]) ∧
    hasNoteOff (plot_waves engine time_sec note shape ss cs c1 c2).1 = false ∧
    ((heatmap_step engine shape length_sec samples harmonics ss note).1 = [] ∨
      (heatmap_step engine shape length_sec samples harmonics ss note).1
        = initParams v
            ++ [.noteOn note, .render 1024 samples shape, .noteOff note]) := by
  refine ⟨plot_waves_trace engine shape v hv time_sec note ss cs c1 c2, ?_,
    heatmap_step_trace engine shape v hv length_sec samples harmonics ss note⟩
  rcases plot_waves_trace engine shape v hv time_sec note ss cs c1 c2 with h | h
  · rw [h]
    rfl
  · rw [h]
    rfl

/-- Witness for `engine_call_order` at concrete inputs. -/
theorem engine_call_order_witness :
    (((plot_waves (fun _ _ _ _ => ([], [])) 1 69 "sine" 500 1024 none none).1 = [] ∨
      (plot_waves (fun _ _ _ _ => ([], [])) 1 69 "sine" 500 1024 none none).1
        = initParams 0.0
            ++ [.noteOn 69, .render 1024 (pyInt ((1 : ℝ) * SAMPLE_RATE)) "sine"]) ∧
    hasNoteOff (plot_waves (fun _ _ _ _ => ([], [])) 1 69 "sine" 500 1024 none none).1
        = false ∧
    ((heatmap_step (fun _ _ _ _ => ([], [])) "sine" 1 17640 1 500 69).1 = [] ∨
      (heatmap_step (fun _ _ _ _ => ([], [])) "sine" 1 17640 1 500 69).1
        = initParams 0.0 ++ [.noteOn 69, .render 1024 17640 "sine", .noteOff 69])) :=
  engine_call_order (fun _ _ _ _ => ([], [])) "sine" 0.0 rfl 1 1 69 500 1024 none none
    17640 1

/-- Full evaluation of a successful single-note run: the trace ends at
`render` and the result is returned. -/
theorem plot_waves_single_eval :
    plot_waves (fun _ _ _ _ => ([(1 : ℝ)], [(1 : ℝ)])) 0 69 "sine" 0 1024 none (some 1)
      = (initParams 0.0 ++ [.noteOn 69, .render 1024 0 "sine"],
         .ok ([(1 : ℝ)], [],
           ((List.range (rfft_bins [(1 : ℝ)])).map (fun k => fft_db [(1 : ℝ)] k)))) := by
  have hbuf : pyInt ((0 : ℝ) * SAMPLE_RATE) = 0 := by
    rw [show ((0 : ℝ) * SAMPLE_RATE) = 0 by ring]
    unfold pyInt
    rw [if_pos le_rfl, Int.floor_zero]
  have hin : initialize_synth "sine" = (initParams 0.0, .ok ()) := rfl
  have hsm0 : ∀ l : List ℝ, smooth_edges l 0 = .ok l := by
    intro l
    unfold smooth_edges
    rw [if_pos rfl]
  unfold plot_waves
  rw [hbuf, hin]
  rw [if_neg (by norm_num : ¬(0 : ℤ) < 0)]
  dsimp only
  rw [hsm0, hsm0]
  dsimp only
  norm_num [pySlice, pySliceIdx, fft, rfft_bins]
  unfold linspace
  norm_num

/-- C6 counterexample: a successful single-note run — `plot_waves` returns
a result — whose engine trace contains no `noteOff` call: single-note mode
never invokes `noteOff`, so the lifecycle does not end with `noteOff` in
that mode. -/
theorem plot_waves_no_noteoff_counterexample :
    (∃ r, (plot_waves (fun _ _ _ _ => ([(1 : ℝ)], [(1 : ℝ)])) 0 69 "sine" 0 1024
        none (some 1)).2 = .ok r) ∧
    hasNoteOff (plot_waves (fun _ _ _ _ => ([(1 : ℝ)], [(1 : ℝ)])) 0 69 "sine" 0 1024
        none (some 1)).1 = false := by
  rw [plot_waves_single_eval]
  exact ⟨⟨_, rfl⟩, rfl⟩

end Sunfish

end
